import Mathlib

/-!
Verification of the JLens project parsing and fact-extraction engine
(`java_parser.py`, class `JavaProjectParser`) against its specification.

The Python code is shallowly embedded: each extractor becomes a Lean
function over an explicit syntax-tree data model mirroring the javalang
node attributes the code reads.  Python exceptions raised inside an
extractor (attribute errors / type errors on annotation elements) are
modelled with `Option` results or an explicit crash flag, because the
per-file `try/except` in `_parse_java_file` catches them.
-/

namespace JLens

/-! ## String helpers (Python `str.strip`, `in`, `endswith`) -/

/-- Python `s.strip` with a double-quote argument: remove every leading and
trailing double-quote character. -/
def stripQuotes (s : String) : String :=
  String.mk (((s.toList.dropWhile (fun c => c = '"')).reverse.dropWhile
    (fun c => c = '"')).reverse)

/-- `needle` occurs as a contiguous sublist of `hay`. -/
def listInfixOf (needle : List Char) : List Char → Bool
  | [] => needle.isEmpty
  | c :: rest => needle.isPrefixOf (c :: rest) || listInfixOf needle rest

/-- Python `needle in hay` for strings: substring test. -/
def strContains (hay needle : String) : Bool :=
  listInfixOf needle.toList hay.toList

/-- Python `s.endswith(suffix)`. -/
def strEndsWith (s suffix : String) : Bool :=
  suffix.toList.isSuffixOf s.toList

/-- The last dot-separated segment of a qualified name. -/
def lastSegment (s : String) : String :=
  String.mk ((s.toList.reverse.takeWhile (fun c => c ≠ '.')).reverse)

/-! ## Syntax-tree data model (the javalang attributes the code reads) -/

/-- A javalang `ElementValuePair` (an annotation argument `name = value`);
its `value` is the raw token text of the argument. -/
structure ElementPair where
  name : String
  value : String
deriving DecidableEq

/-- The `element` attribute of a javalang annotation node: either a single
literal-like node carrying a raw token `value`, or a list of
`ElementValuePair`s. -/
inductive AnnoElem where
  | lit : String → AnnoElem
  | pairs : List ElementPair → AnnoElem
deriving DecidableEq

/-- A javalang annotation node: a name and an optional `element`. -/
structure Annot where
  name : String
  element : Option AnnoElem
deriving DecidableEq

/-- A formal parameter: the name of its type and the parameter name. -/
structure Parameter where
  typeName : String
  name : String
deriving DecidableEq

/-- A javalang `MethodDeclaration` restricted to the attributes read by the
extractors.  `returnType = none` models a `void` method (the javalang
`return_type` is `None` there). -/
structure MethodDecl where
  name : String
  modifiers : List String
  annotations : List Annot
  parameters : List Parameter
  returnType : Option String
deriving DecidableEq

/-- A javalang `FieldDeclaration`: one type, one or more declarators. -/
structure FieldDecl where
  typeName : String
  declarators : List String
deriving DecidableEq

/-- A javalang `ClassDeclaration` restricted to the attributes read. -/
structure ClassDecl where
  name : String
  annotations : List Annot
  methods : List MethodDecl
  fields : List FieldDecl
  extendsType : Option String
  implements : List String
deriving DecidableEq

/-- A parsed compilation unit (`javalang.parse.parse` result): package
name, imported paths, the classes of `tree.filter(ClassDeclaration)`. -/
structure CompUnit where
  package : Option String
  imports : List String
  classes : List ClassDecl
deriving DecidableEq

/-- `tree.filter(javalang.tree.FieldDeclaration)`: every field declaration
of the whole compilation unit, across all of its classes. -/
def treeFields (t : CompUnit) : List FieldDecl :=
  t.classes.flatMap (fun c => c.fields)

/-! ## `_extract_annotation_value` -/

/-- Python truthiness of the `element` attribute: `None` is
falsy, a node object is truthy, a list is truthy iff non-empty. -/
def elemTruthy : Option AnnoElem → Bool
  | none => false
  | some (.lit _) => true
  | some (.pairs ps) => !ps.isEmpty

/-- `_extract_annotation_value`: read the value out of an annotation node.
A single literal-like node yields its raw token stripped of surrounding
double quotes (`""` when the token is empty or the `element` is absent).
On a non-empty pair list the loop takes the first pair — whose `value`
attribute is itself an AST node, always truthy and with no `.strip` — so
the call raises `AttributeError`, modelled as `none`. -/
def extractAnnoValue (a : Annot) : Option String :=
  match a.element with
  | none => some ""
  | some (.lit v) => if v ≠ "" then some (stripQuotes v) else some ""
  | some (.pairs []) => some ""
  | some (.pairs (_ :: _)) => none

/-! ## `_extract_apis` (API extractor)

Crash modelling: `annotation.element.value` raises `AttributeError` when
`element` is a (non-empty) list, `for elem in annotation.element` raises
`TypeError` when `element` is a single node, and `_extract_annotation_value`
raises `AttributeError` on a non-empty pair list (see `extractAnnoValue`).
Such an exception aborts the extractor; earlier appends to `self.apis`
survive, and the per-file `try/except` catches it.  We model a crashed
step as `none`, and a class/file pass as `List ApiFact × Bool` (facts
appended so far, crash flag). -/

/-- One `self.apis` entry. -/
structure ApiFact where
  cls : String
  method : String
  http_method : String
  path : String
  file : String
deriving DecidableEq

/-- Class-level REST annotation vocabulary. -/
def restClassAnnos : List String := ["RestController", "Controller", "Path", "WebServlet"]

/-- `is_rest_controller`: any class annotation name is in the vocabulary. -/
def isRestController (annoNames : List String) : Bool :=
  annoNames.any (fun a => restClassAnnos.contains a)

/-- One iteration of the class-level `class_path` loop (lines 174-178):
the name is `RequestMapping` or `Path`, then
`if annotation.element and annotation.element.value`, overwrite
`class_path`.  `none` models the `AttributeError` raised by `.value` on a
list-valued `element`. -/
def classPathStep (acc : String) (a : Annot) : Option String :=
  if a.name = "RequestMapping" ∨ a.name = "Path" then
    match a.element with
    | none => some acc
    | some (.pairs []) => some acc
    | some (.pairs (_ :: _)) => none
    | some (.lit v) => if v ≠ "" then extractAnnoValue a else some acc
  else some acc

/-- The class-level `class_path` loop over all class annotations. -/
def classPathGo : String → List Annot → Option String
  | acc, [] => some acc
  | acc, a :: as =>
    match classPathStep acc a with
    | none => none
    | some acc2 => classPathGo acc2 as

/-- `class_path` resolution starting from `""`. -/
def classPathLoop (annos : List Annot) : Option String :=
  classPathGo "" annos

/-- Method-level REST annotation vocabulary (`rest_methods`). -/
def restMethods : List String :=
  ["GetMapping", "PostMapping", "PutMapping", "DeleteMapping",
   "RequestMapping", "GET", "POST", "PUT", "DELETE"]

/-- `is_api_method`: a method annotation is in `rest_methods`, or the class
is a REST controller. -/
def isApiMethod (m : MethodDecl) (isRC : Bool) : Bool :=
  m.annotations.any (fun a => restMethods.contains a.name) || isRC

/-- One `RequestMapping` element pair (lines 206-210): `elem.name ==
method` overwrites `http_method`, `value`/`path` overwrites
`method_path` — in both cases with `_extract_annotation_value(elem)`,
which returns `""` because an `ElementValuePair` has no `element`
attribute. -/
def rmPairStep (acc : String × String) (p : ElementPair) : String × String :=
  if p.name = "method" then ("", acc.2)
  else if p.name = "value" ∨ p.name = "path" then (acc.1, "")
  else acc

/-- One iteration of the per-method verb/path loop (lines 200-226) over
state `(http_method, method_path)`.  `none` models the `TypeError` raised
by iterating a non-list `element` of a `RequestMapping`, and the
`AttributeError` propagated out of `_extract_annotation_value` when a
per-verb mapping or `Path` annotation holds a pair list. -/
def verbPathStep (acc : String × String) (a : Annot) : Option (String × String) :=
  if a.name = "RequestMapping" then
    match a.element with
    | none => some acc
    | some (.pairs []) => some acc
    | some (.pairs ps) => some (ps.foldl rmPairStep acc)
    | some (.lit _) => none
  else if a.name = "GetMapping" then (extractAnnoValue a).map (fun v => ("GET", v))
  else if a.name = "PostMapping" then (extractAnnoValue a).map (fun v => ("POST", v))
  else if a.name = "PutMapping" then (extractAnnoValue a).map (fun v => ("PUT", v))
  else if a.name = "DeleteMapping" then (extractAnnoValue a).map (fun v => ("DELETE", v))
  else if a.name = "GET" ∨ a.name = "POST" ∨ a.name = "PUT" ∨ a.name = "DELETE" then
    some (a.name, acc.2)
  else if a.name = "Path" then (extractAnnoValue a).map (fun v => (acc.1, v))
  else some acc

/-- Verb/path resolution for one method, from the defaults `("GET", "")`. -/
def resolveVerbPath (annos : List Annot) : Option (String × String) :=
  annos.foldlM verbPathStep ("GET", "")

/-- The method loop of `_extract_apis` for one class: each qualifying
method appends one fact whose path is `class_path + method_path` when
`method_path` is non-empty and `class_path` alone otherwise; a crash stops
the loop, keeping earlier facts. -/
def apisMethodsLoop (fp cname cp : String) (isRC : Bool) :
    List MethodDecl → List ApiFact × Bool
  | [] => ([], false)
  | m :: ms =>
    if isApiMethod m isRC then
      match resolveVerbPath m.annotations with
      | none => ([], true)
      | some (hm, mp) =>
        let fact : ApiFact :=
          ⟨cname, m.name, hm, if mp ≠ "" then cp ++ mp else cp, fp⟩
        let rest := apisMethodsLoop fp cname cp isRC ms
        (fact :: rest.1, rest.2)
    else apisMethodsLoop fp cname cp isRC ms

/-- `_extract_apis` for one class declaration. -/
def apisOfClass (fp : String) (c : ClassDecl) : List ApiFact × Bool :=
  match classPathLoop c.annotations with
  | none => ([], true)
  | some cp =>
    apisMethodsLoop fp c.name cp
      (isRestController (c.annotations.map (fun a => a.name))) c.methods

/-- The class loop of `_extract_apis`; a crash in one class stops the
pass, keeping the facts appended so far. -/
def apisClassesLoop (fp : String) : List ClassDecl → List ApiFact × Bool
  | [] => ([], false)
  | c :: cs =>
    let r := apisOfClass fp c
    if r.2 then (r.1, true)
    else
      let rest := apisClassesLoop fp cs
      (r.1 ++ rest.1, rest.2)

/-- `_extract_apis` over all classes of the unit. -/
def extractApis (t : CompUnit) (fp : String) : List ApiFact × Bool :=
  apisClassesLoop fp t.classes

/-! ## `_extract_functions` (member extractor) -/

/-- One entry of the `self.functions[class_name]` lists. -/
structure MethodFact where
  name : String
  return_type : String
  parameters : List String
  file : String
deriving DecidableEq

/-- The `MethodFact` built for one method (lines 266-287): parameters as
`"type name"` strings in order, return type `"void"` when `return_type`
is absent. -/
def methodFactOf (fp : String) (m : MethodDecl) : MethodFact :=
  ⟨m.name, m.returnType.getD "void",
   m.parameters.map (fun p => p.typeName ++ " " ++ p.name), fp⟩

/-- The method loop of `_extract_functions` for one class: skip methods
whose modifiers contain `private`, append a fact for the rest. -/
def functionsMethodsLoop (fp cname : String) : List MethodDecl → List (String × MethodFact)
  | [] => []
  | m :: ms =>
    if m.modifiers.contains "private" then functionsMethodsLoop fp cname ms
    else (cname, methodFactOf fp m) :: functionsMethodsLoop fp cname ms

/-- `_extract_functions`: the `(class name, fact)` pairs appended to
`self.functions`, in order. -/
def extractFunctions (t : CompUnit) (fp : String) : List (String × MethodFact) :=
  t.classes.flatMap (fun c => functionsMethodsLoop fp c.name c.methods)

/-! ## `_extract_batch_processes` (batch extractor) -/

/-- The single `batch_details` record of one file.  The Python dict starts
without `class`/`method` keys, modelled as `none`. -/
structure BatchFact where
  file : String
  type : String
  details : String
  cls : Option String
  method : Option String
deriving DecidableEq

/-- `batch_annotations`. -/
def batchAnnotations : List String := ["Scheduled", "Schedule", "Quartz", "BatchJob", "Job"]

/-- `batch_class_patterns`. -/
def batchClassPatterns : List String :=
  ["BatchJob", "Job", "Processor", "Reader", "Writer", "TaskExecutor",
   "Scheduler", "QuartzJob"]

/-- Class-annotation loop of the batch extractor (lines 318-325): matching
annotations overwrite `class`/`type`, and `details` only when the
`element` of the annotation is truthy.  `none` models the
`AttributeError` raised by `_extract_annotation_value` on a pair-list
`element`; the exception discards the whole in-progress record, since the
single append happens only at the end of the extractor. -/
def batchClassAnnoStep (cname : String) (st : Bool × BatchFact) (a : Annot) :
    Option (Bool × BatchFact) :=
  if batchAnnotations.contains a.name then
    if elemTruthy a.element then
      (extractAnnoValue a).map (fun v =>
        (true,
         { st.2 with
            cls := some cname
            type := "Batch Class (" ++ a.name ++ ")"
            details := v }))
    else
      some (true,
        { st.2 with cls := some cname, type := "Batch Class (" ++ a.name ++ ")" })
  else some st

/-- Method-annotation loop of the batch extractor (lines 328-338), with
the same error path as `batchClassAnnoStep`. -/
def batchMethodAnnoStep (cname mname : String) (st : Bool × BatchFact) (a : Annot) :
    Option (Bool × BatchFact) :=
  if batchAnnotations.contains a.name then
    if elemTruthy a.element then
      (extractAnnoValue a).map (fun v =>
        (true,
         { st.2 with
            cls := some cname
            method := some mname
            type := "Scheduled Method (" ++ a.name ++ ")"
            details := v }))
    else
      some (true,
        { st.2 with
           cls := some cname
           method := some mname
           type := "Scheduled Method (" ++ a.name ++ ")" })
  else some st

/-- First criterion of the per-class step: class-name patterns. -/
def batchNameStep (st : Bool × BatchFact) (c : ClassDecl) : Bool × BatchFact :=
  if batchClassPatterns.any (fun p => strContains c.name p) then
    (true, { st.2 with cls := some c.name, type := "Batch Class" })
  else st

/-- The per-class step of `_extract_batch_processes` (lines 308-338):
class-name patterns, then class annotations, then method annotations, all
mutating the one shared `(is_batch_process, batch_details)` state;
`none` propagates an annotation-value crash. -/
def batchClassStep (st : Bool × BatchFact) (c : ClassDecl) :
    Option (Bool × BatchFact) :=
  match c.annotations.foldlM (batchClassAnnoStep c.name) (batchNameStep st c) with
  | none => none
  | some st2 =>
    c.methods.foldlM
      (fun s m => m.annotations.foldlM (batchMethodAnnoStep c.name m.name) s) st2

/-! The job-id search models the `re.search` call on the raw pattern
`<job`, `[^>]*`, `id=`, a quote class, a lazy capture group, a quote
class (line 346), with Python semantics: leftmost match start, greedy `[^>]*` with backtracking, lazy
capture up to the first following quote, `.` not matching a newline. -/

/-- A single or double quote character. -/
def isQuoteChar (c : Char) : Bool := c = '\'' || c = '"'

/-- Lazy `(.*?)` followed by a quote: the shortest prefix of non-newline
characters ending at a quote; `none` when a newline or the end comes
first. -/
def lazyCapture : List Char → Option (List Char)
  | [] => none
  | c :: cs =>
    if isQuoteChar c then some []
    else if c = '\n' then none
    else (lazyCapture cs).map (fun r => c :: r)

/-- Try to match `id=`, a quote, and the lazy capture at this position. -/
def tryIdAt : List Char → Option (List Char)
  | 'i' :: 'd' :: '=' :: q :: rest => if isQuoteChar q then lazyCapture rest else none
  | _ => none

/-- Greedy `[^>]*` with backtracking: among all candidate positions inside
the maximal `>`-free prefix, keep the match at the last position where
`tryIdAt` succeeds. -/
def greedyIdSearch : List Char → Option (List Char) → Option (List Char)
  | cs, best =>
    let best2 := match tryIdAt cs with
      | some r => some r
      | none => best
    match cs with
    | [] => best2
    | c :: rest => if c = '>' then best2 else greedyIdSearch rest best2

/-- Match the whole pattern at this position: the literal `<job`, then the
greedy id search. -/
def matchJobAt : List Char → Option (List Char)
  | '<' :: 'j' :: 'o' :: 'b' :: rest => greedyIdSearch rest none
  | _ => none

/-- `re.search`: leftmost position at which the pattern matches. -/
def jobIdSearchAux : List Char → Option (List Char)
  | [] => none
  | c :: rest =>
    match matchJobAt (c :: rest) with
    | some r => some r
    | none => jobIdSearchAux rest

/-- The captured job id of the first match, if any. -/
def jobIdSearch (content : String) : Option String :=
  (jobIdSearchAux content.toList).map String.mk

/-- `_extract_batch_processes`: the list of facts appended to
`self.batch_processes` for one file (`[]` or a singleton), or `none` when
an annotation-value crash aborts the extractor before its single append
(so nothing at all is appended). -/
def extractBatchProcesses (t : CompUnit) (fp content : String) :
    Option (List BatchFact) :=
  match t.classes.foldlM batchClassStep (false, ⟨fp, "Unknown", "", none, none⟩) with
  | none => none
  | some st =>
    let st2 :=
      if strContains content "<job" || strContains content "<step" ||
          strContains content "<tasklet" then
        (true,
         { st.2 with
            type := "Spring Batch XML Configuration"
            details := match jobIdSearch content with
              | some j => "Job ID: " ++ j
              | none => st.2.details })
      else st
    some (if st2.1 then [st2.2] else [])

/-! ## `_analyze_dependencies` (dependency analyzer) -/

/-- One `self.dependencies` record. -/
structure DepRecord where
  file : String
  package : String
  imports : List String
  uses : List String
deriving DecidableEq

/-- `self.dependencies`: an insertion-ordered map from qualified class
name to record, as an association list with unique keys. -/
abbrev DepMap := List (String × DepRecord)

/-- Python `key in dict`. -/
def depContains (m : DepMap) (k : String) : Bool :=
  (List.any m (fun p => p.1 = k))

/-- Python `dict[key]` lookup (first, and only, binding of the key). -/
def depFind (m : DepMap) (k : String) : Option DepRecord :=
  (List.find? (fun p => p.1 = k) m).map (fun p => p.2)

/-- `dict[key]['uses'].append(...)` repeated for a list: extend the uses of
the record bound to `k`. -/
def depAppendUses (m : DepMap) (k : String) (us : List String) : DepMap :=
  List.map (fun p => if p.1 = k then (p.1, { p.2 with uses := p.2.uses ++ us }) else p) m

/-- The qualified class name (line 373): `package.Class` when the package
name is truthy, the bare class name otherwise. -/
def fqnOf (pkg cname : String) : String :=
  if pkg ≠ "" then pkg ++ "." ++ cname else cname

/-- The package name string read from the unit (line 360-362). -/
def pkgOf (t : CompUnit) : String := t.package.getD ""

/-- The qualified names of all classes of a unit. -/
def treeFqns (t : CompUnit) : List String :=
  t.classes.map (fun c => fqnOf (pkgOf t) c.name)

/-- The imports matched against one short name (lines 389-391): every
imported path ending with a dot followed by the name, in original order. -/
def matchingImports (imports : List String) (short : String) : List String :=
  imports.filter (fun imp => strEndsWith imp ("." ++ short))

/-- The short names a class visit resolves, in the order of the code:
the field type once per declarator for every field of the whole unit
(lines 385-391), then the implemented interfaces of the class (lines
394-399), then its superclass (lines 402-406). -/
def classRefNames (t : CompUnit) (c : ClassDecl) : List String :=
  (treeFields t).flatMap (fun f => f.declarators.map (fun _ => f.typeName)) ++
    c.implements ++ (match c.extendsType with | some e => [e] | none => [])

/-- The uses entries appended during one class visit. -/
def classUses (imports : List String) (t : CompUnit) (c : ClassDecl) : List String :=
  (classRefNames t c).flatMap (fun s => matchingImports imports s)

/-- Processing of one class declaration (lines 371-406): create the record
when the qualified name is unbound, then append the resolved uses. -/
def processClass (fp : String) (t : CompUnit) (m : DepMap) (c : ClassDecl) : DepMap :=
  let k := fqnOf (pkgOf t) c.name
  let m1 := if depContains m k then m else m ++ [(k, ⟨fp, pkgOf t, t.imports, []⟩)]
  depAppendUses m1 k (classUses t.imports t c)

/-- Processing of one parsed file. -/
def processFile (m : DepMap) (ft : String × CompUnit) : DepMap :=
  ft.2.classes.foldl (processClass ft.1 ft.2) m

/-- `_analyze_dependencies` over `self.parsed_files` in insertion order. -/
def analyzeDependencies (files : List (String × CompUnit)) : DepMap :=
  files.foldl processFile []

/-! ## `_analyze_project_structure` (structure builder) -/

/-- The filesystem under the project root: a file or a directory with its
entries in `os.listdir` order.  The constructor name is the entry name. -/
inductive FsNode where
  | file : String → FsNode
  | dir : String → List FsNode → FsNode

/-- The name of a filesystem entry. -/
def fsName : FsNode → String
  | .file n => n
  | .dir n _ => n

/-- One node of the returned structure. -/
inductive DirNode where
  | file : String → String → DirNode
  | dir : String → String → List DirNode → DirNode

/-- The relative path of a child entry, as `os.path.relpath` yields it:
the entry name directly under the root (whose own relative path is `.`),
slash-joining with the parent path below. -/
def childRel (rel item : String) : String :=
  if rel = "." then item else rel ++ "/" ++ item

/-- The skip test of the walk (line 427): hidden entries and the build
output directory names. -/
def skipEntry (n : String) : Bool :=
  n.startsWith "." || n = "target" || n = "build" || n = "bin" || n = "out"

mutual

/-- `build_structure` (lines 413-437): a file maps to a file node when its
name ends in `.java` and is dropped otherwise; a directory keeps its
non-skipped children that map to something, and is dropped when none
remain. -/
def buildStructure : FsNode → String → Option DirNode
  | .file n, rel => if strEndsWith n ".java" then some (.file n rel) else none
  | .dir n items, rel =>
    let children := buildChildren items rel
    if children.isEmpty then none else some (.dir n rel children)

/-- The `os.listdir` loop of `build_structure`. -/
def buildChildren : List FsNode → String → List DirNode
  | [], _ => []
  | item :: rest, rel =>
    if skipEntry (fsName item) then buildChildren rest rel
    else
      match buildStructure item (childRel rel (fsName item)) with
      | some c => c :: buildChildren rest rel
      | none => buildChildren rest rel

end

/-- The empty fallback root (line 442); the Python dict carries no path
key, modelled here as the empty path. -/
def fallbackRoot (base : String) : DirNode := .dir base "" []

/-- `_analyze_project_structure`: build from the root (relative path `.`),
falling back to the empty directory node named after the base name of the
project path. -/
def analyzeProjectStructure (root : FsNode) (base : String) : DirNode :=
  match buildStructure root "." with
  | some s => s
  | none => fallbackRoot base

/-! ## `_parse_java_file` and the scan loop of `parse_project` -/

/-- The outcome of `javalang.parse.parse` on the text of one file. -/
inductive ParseOutcome where
  | failed : ParseOutcome
  | ok : CompUnit → ParseOutcome
deriving DecidableEq

/-- One collected source file: its relative path, its raw text, and its
parse outcome. -/
structure SourceFile where
  path : String
  content : String
  outcome : ParseOutcome
deriving DecidableEq

/-- The accumulator containers filled during the per-file pass. -/
structure ScanState where
  parsed : List (String × CompUnit)
  apis : List ApiFact
  functions : List (String × MethodFact)
  batch : List BatchFact
deriving DecidableEq

/-- The initial accumulators. -/
def initialScanState : ScanState := ⟨[], [], [], []⟩

/-- `_parse_java_file` (lines 128-154): on a parse failure nothing at all
is recorded; on success the tree is stored in `parsed_files`, and the
three extractors run in order under the same `try/except`, so a crash in
the API extractor keeps the tree and the facts appended so far but skips
the remaining extractors, and a crash in the batch extractor (its append
comes last) leaves the batch table untouched. -/
def parseJavaFile (st : ScanState) (sf : SourceFile) : ScanState :=
  match sf.outcome with
  | .failed => st
  | .ok t =>
    let st1 := { st with parsed := st.parsed ++ [(sf.path, t)] }
    let r := extractApis t sf.path
    let st2 := { st1 with apis := st1.apis ++ r.1 }
    if r.2 then st2
    else
      { st2 with
          functions := st2.functions ++ extractFunctions t sf.path
          batch := st2.batch ++ (extractBatchProcesses t sf.path sf.content).getD [] }

/-- The per-file loop of `parse_project` (lines 31-32). -/
def scanFiles (files : List SourceFile) : ScanState :=
  files.foldl parseJavaFile initialScanState

/-- A source file that parses. -/
def parsesOk (sf : SourceFile) : Bool :=
  match sf.outcome with
  | .failed => false
  | .ok _ => true

/-! ## Helper lemmas -/

/-- The method loop of the member extractor is a filter-and-map. -/
theorem functionsMethodsLoop_eq (fp cname : String) (ms : List MethodDecl) :
    functionsMethodsLoop fp cname ms =
      (ms.filter (fun m => !(m.modifiers.contains "private"))).map
        (fun m => (cname, methodFactOf fp m)) := by
  induction ms with
  | nil => rfl
  | cons m ms ih =>
    by_cases h : "private" ∈ m.modifiers <;>
      simp [functionsMethodsLoop, List.filter_cons, h, ih]

/-! ## C7 -/

/-- C7.  In the member inventory (`self.functions`), a method carrying the
`private` modifier never yields an entry; every emitted `MethodFact` has
return type `void` when the method declares none, and its parameters are
the ordered `type name` pairs. -/
theorem C7_member_inventory_excludes_private (t : CompUnit) (fp : String) :
    extractFunctions t fp =
      t.classes.flatMap (fun c =>
        (c.methods.filter (fun m => !(m.modifiers.contains "private"))).map
          (fun m => (c.name,
            (⟨m.name, m.returnType.getD "void",
              m.parameters.map (fun p => p.typeName ++ " " ++ p.name),
              fp⟩ : MethodFact)))) := by
  unfold extractFunctions
  refine List.flatMap_congr ?_
  intro c _
  exact functionsMethodsLoop_eq fp c.name c.methods

/-! ## C5 -/

/-- An annotation assigns `class_path` iff its name is `RequestMapping` or
`Path` and its `element` holds a truthy single value. -/
def setsClassPath (a : Annot) : Bool :=
  (a.name == "RequestMapping" || a.name == "Path") &&
    (match a.element with
     | some (.lit v) => v ≠ ""
     | _ => false)

/-- A step of the `class_path` loop on a non-assigning annotation either
crashes or leaves the accumulator unchanged. -/
theorem classPathStep_of_not_sets (acc : String) (a : Annot)
    (h : setsClassPath a = false) :
    classPathStep acc a = none ∨ classPathStep acc a = some acc := by
  unfold classPathStep
  split
  · rename_i hname
    match he : a.element with
    | none => simp
    | some (.pairs []) => simp
    | some (.pairs (p :: ps)) => simp
    | some (.lit v) =>
      simp only [setsClassPath, he] at h
      rcases Bool.and_eq_false_iff.mp h with h1 | h2
      · rcases hname with h' | h' <;> simp [h'] at h1
      · right
        simp only [decide_eq_false_iff_not, Decidable.not_not] at h2
        simp [h2]
  · simp

/-- A step of the `class_path` loop on an assigning annotation stores the
extracted value (which, for a non-empty literal token, never crashes). -/
theorem classPathStep_of_sets (acc : String) (a : Annot)
    (h : setsClassPath a = true) :
    classPathStep acc a = extractAnnoValue a := by
  simp only [setsClassPath, Bool.and_eq_true, Bool.or_eq_true, beq_iff_eq] at h
  obtain ⟨h1, h2⟩ := h
  unfold classPathStep
  rw [if_pos h1]
  match he : a.element with
  | none => rw [he] at h2; simp at h2
  | some (.pairs ps) => rw [he] at h2; simp at h2
  | some (.lit v) =>
    rw [he] at h2
    have hv : v ≠ "" := by simpa using h2
    simp [hv]

/-- The `class_path` left by the loop: the value of the last assigning
annotation, or the initial accumulator when none assigns. -/
theorem classPathGo_last (as : List Annot) :
    ∀ acc cp : String,
      classPathGo acc as = some cp →
      (match (as.filter setsClassPath).getLast? with
       | some a => extractAnnoValue a
       | none => some acc) = some cp := by
  induction as with
  | nil =>
    intro acc cp hgo
    unfold classPathGo at hgo
    simpa using hgo
  | cons b bs ih =>
    intro acc cp hgo
    unfold classPathGo at hgo
    cases hsets : setsClassPath b with
    | false =>
      rcases classPathStep_of_not_sets acc b hsets with hn | hs
      · rw [hn] at hgo; exact absurd hgo (by simp)
      · rw [hs] at hgo
        simp only at hgo
        rw [List.filter_cons_of_neg (by simp [hsets])]
        exact ih acc cp hgo
    | true =>
      rw [classPathStep_of_sets acc b hsets] at hgo
      rw [List.filter_cons_of_pos (by simp [hsets])]
      cases hval : extractAnnoValue b with
      | none => rw [hval] at hgo; exact absurd hgo (by simp)
      | some w =>
        rw [hval] at hgo
        simp only at hgo
        have := ih w cp hgo
        rw [List.getLast?_cons]
        cases htail : (bs.filter setsClassPath).getLast? with
        | some a2 => rw [htail] at this; simpa using this
        | none =>
          rw [htail] at this
          simp only at this
          simp only [Option.getD_none]
          rw [hval]
          simpa using this

/-- A class-level `RequestMapping` annotation holding the value `"/a"`. -/
def c5first : Annot := ⟨"RequestMapping", some (.lit "\"/a\"")⟩

/-- A class-level `Path` annotation holding the value `"/b"`. -/
def c5second : Annot := ⟨"Path", some (.lit "\"/b\"")⟩

/-- C5, counterexample.  On a class carrying `RequestMapping("/a")` then
`Path("/b")`, the loop (which has no break) leaves the value of the
second, last matching annotation: the resolved `class_path` is `/b`, not
the first matching value `/a` the claim requires. -/
theorem C5_counterexample_last_not_first :
    classPathLoop [c5first, c5second] = some "/b" ∧
    extractAnnoValue c5first = some "/a" ∧ ("/b" : String) ≠ "/a" := by
  refine ⟨by decide, by decide, by decide⟩

/-- C5, amended.  For every class whose annotations contain at least one
path-assigning annotation (`RequestMapping` or `Path` with a truthy
value), the resolved `class_path` — when the loop raises no exception —
is the extracted (quote-stripped) value of the LAST such annotation in
declaration order. -/
theorem C5_amended_last_matching_annotation_wins (annos : List Annot)
    (a : Annot) (cp : String)
    (hlast : (annos.filter setsClassPath).getLast? = some a)
    (hok : classPathLoop annos = some cp) :
    extractAnnoValue a = some cp := by
  have h := classPathGo_last annos "" cp hok
  rw [hlast] at h
  exact h

/-- C5, witness: the amended theorem applied to the two-annotation class
of the counterexample. -/
theorem C5_amended_witness :
    classPathLoop [c5first, c5second] = some "/b" ∧
    extractAnnoValue c5second = some "/b" :=
  ⟨by decide,
   C5_amended_last_matching_annotation_wins [c5first, c5second] c5second "/b"
     (by decide) (by decide)⟩

/-! ## C6 -/

/-- C6.  For every qualifying endpoint method whose verb/path resolution
succeeds with method path `mp`, the appended fact's path is the literal
concatenation `class_path ++ mp` when `mp` is non-empty and `class_path`
alone when `mp` is empty — no slash normalization of any kind. -/
theorem C6_literal_path_concatenation (fp cname cp : String) (isRC : Bool)
    (m : MethodDecl) (v mp : String)
    (hq : isApiMethod m isRC = true)
    (hr : resolveVerbPath m.annotations = some (v, mp)) :
    apisMethodsLoop fp cname cp isRC [m] =
      ([⟨cname, m.name, v, if mp ≠ "" then cp ++ mp else cp, fp⟩], false) := by
  unfold apisMethodsLoop
  rw [if_pos hq, hr]
  rfl

/-- C6, witness: with class path `/api`, a `GetMapping("/users")` method
yields path `/api/users`; a method with no annotations on a controller
yields `/api` alone; and with class path `/api/` the join keeps the double
slash (`/api//users`), showing no normalization. -/
theorem C6_witness :
    apisMethodsLoop "F.java" "C" "/api" false [⟨"list", [], [⟨"GetMapping", some (.lit "\"/users\"")⟩], [], none⟩] =
      ([⟨"C", "list", "GET", "/api/users", "F.java"⟩], false) ∧
    apisMethodsLoop "F.java" "C" "/api" true [⟨"ping", [], [], [], none⟩] =
      ([⟨"C", "ping", "GET", "/api", "F.java"⟩], false) ∧
    apisMethodsLoop "F.java" "C" "/api/" false [⟨"list", [], [⟨"GetMapping", some (.lit "\"/users\"")⟩], [], none⟩] =
      ([⟨"C", "list", "GET", "/api//users", "F.java"⟩], false) := by
  refine ⟨?_, ?_, ?_⟩
  · exact (C6_literal_path_concatenation "F.java" "C" "/api" false
      ⟨"list", [], [⟨"GetMapping", some (.lit "\"/users\"")⟩], [], none⟩ "GET" "/users"
      (by decide) (by decide)).trans (by decide)
  · exact (C6_literal_path_concatenation "F.java" "C" "/api" true
      ⟨"ping", [], [], [], none⟩ "GET" ""
      (by decide) (by decide)).trans (by decide)
  · exact (C6_literal_path_concatenation "F.java" "C" "/api/" false
      ⟨"list", [], [⟨"GetMapping", some (.lit "\"/users\"")⟩], [], none⟩ "GET" "/users"
      (by decide) (by decide)).trans (by decide)

/-! ## C1 -/

/-- The mapping-annotation vocabulary handled by the per-method verb/path
loop: the method-level REST names plus `Path`. -/
def mappingAnnoNames : List String :=
  ["GetMapping", "PostMapping", "PutMapping", "DeleteMapping",
   "RequestMapping", "GET", "POST", "PUT", "DELETE", "Path"]

/-- The verb/path loop ignores annotations outside the mapping
vocabulary. -/
theorem verbPathStep_skip (acc : String × String) (a : Annot)
    (h : a.name ∉ mappingAnnoNames) :
    verbPathStep acc a = some acc := by
  simp only [mappingAnnoNames, List.mem_cons, List.not_mem_nil, or_false,
    not_or] at h
  obtain ⟨h1, h2, h3, h4, h5, h6, h7, h8, h9, h10⟩ := h
  unfold verbPathStep
  simp [h1, h2, h3, h4, h5, h6, h7, h8, h9, h10]

/-- Verb/path resolution leaves the defaults untouched when no annotation
is in the mapping vocabulary. -/
theorem foldlM_verbPathStep_skip (annos : List Annot) :
    ∀ acc : String × String,
      (∀ a ∈ annos, a.name ∉ mappingAnnoNames) →
      annos.foldlM verbPathStep acc = some acc := by
  induction annos with
  | nil => intro acc _; rfl
  | cons a as ih =>
    intro acc h
    have hstep := verbPathStep_skip acc a (h a (by simp))
    simp only [List.foldlM_cons, hstep, Option.bind_some]
    exact ih acc (fun b hb => h b (by simp [hb]))

/-- On a REST-controller class, the method loop emits exactly one fact per
method, with verb `GET` and the class path, when no method carries a
mapping annotation. -/
theorem apisMethodsLoop_controller_defaults (fp cname cp : String)
    (ms : List MethodDecl)
    (h : ∀ m ∈ ms, ∀ a ∈ m.annotations, a.name ∉ mappingAnnoNames) :
    apisMethodsLoop fp cname cp true ms =
      (ms.map (fun m => ⟨cname, m.name, "GET", cp, fp⟩), false) := by
  induction ms with
  | nil => rfl
  | cons m ms ih =>
    have hq : isApiMethod m true = true := by simp [isApiMethod]
    have hr : resolveVerbPath m.annotations = some ("GET", "") :=
      foldlM_verbPathStep_skip m.annotations ("GET", "") (h m (by simp))
    unfold apisMethodsLoop
    rw [if_pos hq, hr]
    rw [ih (fun m2 hm2 => h m2 (by simp [hm2]))]
    simp

/-- C1.  For every class carrying a class-level annotation in
{`RestController`, `Controller`, `Path`, `WebServlet`} whose methods carry
no mapping annotation, the API extractor emits exactly one
`ApiEndpointFact` per method, each with HTTP verb `GET` (the default). -/
theorem C1_controller_class_default_get_endpoints (fp : String)
    (c : ClassDecl) (cp : String)
    (hrc : isRestController (c.annotations.map (fun a => a.name)) = true)
    (hcp : classPathLoop c.annotations = some cp)
    (hno : ∀ m ∈ c.methods, ∀ a ∈ m.annotations, a.name ∉ mappingAnnoNames) :
    apisOfClass fp c =
      (c.methods.map (fun m => ⟨c.name, m.name, "GET", cp, fp⟩), false) := by
  unfold apisOfClass
  rw [hcp, hrc]
  exact apisMethodsLoop_controller_defaults fp c.name cp c.methods hno

/-- C1, witness: a `RestController` class with a public and a private
method (the latter carrying only a non-mapping `Override` annotation)
yields exactly one `GET` fact per method. -/
theorem C1_witness :
    apisOfClass "U.java"
      ⟨"UserController", [⟨"RestController", none⟩],
       [⟨"getUsers", ["public"], [⟨"Override", none⟩], [], some "List"⟩,
        ⟨"helper", ["private"], [], [], none⟩], [], none, []⟩ =
      ([⟨"UserController", "getUsers", "GET", "", "U.java"⟩,
        ⟨"UserController", "helper", "GET", "", "U.java"⟩], false) := by
  exact (C1_controller_class_default_get_endpoints "U.java"
    ⟨"UserController", [⟨"RestController", none⟩],
     [⟨"getUsers", ["public"], [⟨"Override", none⟩], [], some "List"⟩,
      ⟨"helper", ["private"], [], [], none⟩], [], none, []⟩ ""
    (by decide) (by decide) (by decide)).trans (by decide)

/-! ## C9 -/

/-- On a controller class a crash-free method loop yields a fact list whose
method names are exactly the method names of the class, in order, all
attributed to the class. -/
theorem apisMethodsLoop_controller_names (fp cname cp : String) :
    ∀ (ms : List MethodDecl) (facts : List ApiFact),
      apisMethodsLoop fp cname cp true ms = (facts, false) →
      facts.map (fun f => f.method) = ms.map (fun m => m.name) ∧
      ∀ f ∈ facts, f.cls = cname := by
  intro ms
  induction ms with
  | nil =>
    intro facts h
    unfold apisMethodsLoop at h
    cases h
    exact ⟨rfl, by simp⟩
  | cons m ms ih =>
    intro facts h
    have hq : isApiMethod m true = true := by simp [isApiMethod]
    unfold apisMethodsLoop at h
    rw [if_pos hq] at h
    cases hr : resolveVerbPath m.annotations with
    | none => rw [hr] at h; cases h
    | some p =>
      rw [hr] at h
      obtain ⟨v, mp⟩ := p
      simp only at h
      cases hrest : apisMethodsLoop fp cname cp true ms with
      | mk restFacts restCrash =>
        rw [hrest] at h
        cases h
        obtain ⟨ihn, ihc⟩ := ih restFacts (by rw [hrest])
        constructor
        · simp [ihn]
        · intro f hf
          rcases List.mem_cons.mp hf with hhead | htail
          · rw [hhead]
          · exact ihc f htail

/-- C9.  The API extractor performs no visibility check: on a class marked
as a REST controller, a crash-free pass emits one fact per method — the
fact list's method names are exactly the class's method names — so every
method carrying the `private` modifier also appears as an endpoint
attributed to that class (unlike the member inventory). -/
theorem C9_private_methods_become_endpoints (fp : String) (c : ClassDecl)
    (facts : List ApiFact)
    (hrc : isRestController (c.annotations.map (fun a => a.name)) = true)
    (hok : apisOfClass fp c = (facts, false)) :
    facts.map (fun f => f.method) = c.methods.map (fun m => m.name) ∧
    ∀ m ∈ c.methods, "private" ∈ m.modifiers →
      ∃ f ∈ facts, f.method = m.name ∧ f.cls = c.name := by
  unfold apisOfClass at hok
  cases hcp : classPathLoop c.annotations with
  | none => rw [hcp] at hok; cases hok
  | some cp =>
    rw [hcp, hrc] at hok
    obtain ⟨hnames, hcls⟩ := apisMethodsLoop_controller_names fp c.name cp c.methods facts hok
    refine ⟨hnames, ?_⟩
    intro m hm _
    have : m.name ∈ facts.map (fun f => f.method) := by
      rw [hnames]
      exact List.mem_map_of_mem (fun m => m.name) hm
    rcases List.mem_map.mp this with ⟨f, hf, hfm⟩
    exact ⟨f, hf, hfm, hcls f hf⟩

/-- C9, witness: a `Controller` class whose only method is private still
yields that method as an endpoint. -/
theorem C9_witness :
    ((([⟨"Secret", "hidden", "GET", "", "S.java"⟩] : List ApiFact).map
        (fun f => f.method)) = ["hidden"]) ∧
    ∃ f ∈ ([⟨"Secret", "hidden", "GET", "", "S.java"⟩] : List ApiFact),
      f.method = "hidden" ∧ f.cls = "Secret" := by
  have h := C9_private_methods_become_endpoints "S.java"
    ⟨"Secret", [⟨"Controller", none⟩],
     [⟨"hidden", ["private"], [], [], none⟩], [], none, []⟩
    [⟨"Secret", "hidden", "GET", "", "S.java"⟩]
    (by decide) (by decide)
  exact ⟨h.1.trans (by decide),
    h.2 ⟨"hidden", ["private"], [], [], none⟩ (by decide) (by decide)⟩

/-! ## C3 -/

/-- A compilation unit whose single class `OrderProcessor` matches the
batch name patterns. -/
def c3unit : CompUnit := ⟨none, [], [⟨"OrderProcessor", [], [], [], none, []⟩]⟩

/-- C3.  The batch extractor appends at most one fact per file: the four
detection criteria mutate the one shared `batch_details` record in rule
order.  In particular, a file whose class name matches a batch pattern and
whose raw text holds a `<job id="nightlyClose">` block yields exactly one
fact of type `Spring Batch XML Configuration` with details
`Job ID: nightlyClose` — the XML rule (criterion 4) overwrote the
class-name rule's `type` while the `class` field set by criterion 1
survives. -/
theorem C3_single_batch_fact_rule_order :
    (∀ (t : CompUnit) (fp content : String),
        ((extractBatchProcesses t fp content).getD []).length ≤ 1) ∧
    extractBatchProcesses c3unit "Order.java" "<job id=\"nightlyClose\">" =
      some [⟨"Order.java", "Spring Batch XML Configuration", "Job ID: nightlyClose",
        some "OrderProcessor", none⟩] := by
  constructor
  · intro t fp content
    unfold extractBatchProcesses
    cases t.classes.foldlM batchClassStep (false, ⟨fp, "Unknown", "", none, none⟩) with
    | none => simp
    | some st =>
      simp only [Option.getD_some]
      split
      · split <;> simp
      · split <;> simp
  · decide

/-! ## C8 -/

mutual

/-- The well-formedness the spec requires of a structure node: file nodes
carry `.java` names, directory nodes are non-empty and recursively
well-formed. -/
def goodNode : DirNode → Bool
  | .file n _ => strEndsWith n ".java"
  | .dir _ _ cs => !cs.isEmpty && goodNodes cs

/-- `goodNode` on every node of a list. -/
def goodNodes : List DirNode → Bool
  | [] => true
  | c :: cs => goodNode c && goodNodes cs

end

/-- Size-bounded induction core: every node the builder returns is
well-formed. -/
theorem goodNode_of_buildStructure_bounded (k : Nat) :
    ∀ fs : FsNode, sizeOf fs ≤ k →
      ∀ (rel : String) (n : DirNode), buildStructure fs rel = some n →
        goodNode n = true := by
  induction k with
  | zero =>
    intro fs hle
    cases fs <;> simp at hle
  | succ k ih =>
    intro fs hle rel n hb
    cases fs with
    | file nm =>
      unfold buildStructure at hb
      by_cases hj : strEndsWith nm ".java" = true
      · rw [if_pos hj] at hb
        cases hb
        simpa [goodNode] using hj
      · rw [if_neg hj] at hb
        cases hb
    | dir nm items =>
      unfold buildStructure at hb
      by_cases he : (buildChildren items rel).isEmpty = true
      · rw [if_pos he] at hb; cases hb
      · rw [if_neg he] at hb
        cases hb
        have hsz : ∀ it ∈ items, sizeOf it ≤ k := by
          intro it hit
          have h1 : sizeOf it < sizeOf items := List.sizeOf_lt_of_mem hit
          have h2 : sizeOf items < sizeOf (FsNode.dir nm items) := by
            simp [FsNode.dir.sizeOf_spec]
          omega
        have hgood : ∀ (items2 : List FsNode) (rel2 : String),
            (∀ it ∈ items2, sizeOf it ≤ k) →
            goodNodes (buildChildren items2 rel2) = true := by
          intro items2
          induction items2 with
          | nil => intro rel2 _; rfl
          | cons it rest ihr =>
            intro rel2 hsz2
            unfold buildChildren
            by_cases hskip : skipEntry (fsName it) = true
            · rw [if_pos hskip]
              exact ihr rel2 (fun x hx => hsz2 x (by simp [hx]))
            · rw [if_neg hskip]
              cases hbc : buildStructure it (childRel rel2 (fsName it)) with
              | none => exact ihr rel2 (fun x hx => hsz2 x (by simp [hx]))
              | some c =>
                have hc := ih it (hsz2 it (by simp)) (childRel rel2 (fsName it)) c hbc
                unfold goodNodes
                rw [hc, ihr rel2 (fun x hx => hsz2 x (by simp [hx]))]
                rfl
        unfold goodNode
        rw [hgood items rel hsz]
        simpa using he

/-- C8.  The structure builder either returns the filtered tree — in which
every file node bears a `.java` name and every directory node retains at
least one child, recursively — or, when nothing qualifies, falls back to
the always-present empty root directory node named after the project base
directory. -/
theorem C8_structure_tree_invariants (root : FsNode) (base : String) :
    (buildStructure root "." = none ∧
      analyzeProjectStructure root base = fallbackRoot base) ∨
    (buildStructure root "." = some (analyzeProjectStructure root base) ∧
      goodNode (analyzeProjectStructure root base) = true) := by
  unfold analyzeProjectStructure
  cases hb : buildStructure root "." with
  | none => exact Or.inl ⟨rfl, rfl⟩
  | some n =>
    exact Or.inr ⟨rfl,
      goodNode_of_buildStructure_bounded (sizeOf root) root (Nat.le_refl _) "." n hb⟩

/-! ## C2: helper lemmas attributing every fact to its source file -/

/-- A fold preserves any invariant its step preserves. -/
theorem foldl_preserve {α β : Type} (P : β → Prop) (f : β → α → β)
    (hf : ∀ b a, P b → P (f b a)) :
    ∀ (l : List α) (b : β), P b → P (l.foldl f b) := by
  intro l
  induction l with
  | nil => intro b hb; exact hb
  | cons a as ih => intro b hb; exact ih (f b a) (hf b a hb)

/-- Every fact of the per-class method loop carries the file path. -/
theorem apisMethodsLoop_file (fp cname cp : String) (isRC : Bool) :
    ∀ ms : List MethodDecl, ∀ f ∈ (apisMethodsLoop fp cname cp isRC ms).1,
      f.file = fp := by
  intro ms
  induction ms with
  | nil => intro f hf; simp [apisMethodsLoop] at hf
  | cons m ms ih =>
    intro f hf
    unfold apisMethodsLoop at hf
    by_cases hq : isApiMethod m isRC = true
    · rw [if_pos hq] at hf
      cases hr : resolveVerbPath m.annotations with
      | none => rw [hr] at hf; simp at hf
      | some p =>
        rw [hr] at hf
        obtain ⟨v, mp⟩ := p
        simp only [List.mem_cons] at hf
        rcases hf with hf | hf
        · rw [hf]
        · exact ih f hf
    · rw [if_neg hq] at hf
      exact ih f hf

/-- Every fact of the API extractor carries the file path. -/
theorem extractApis_file (t : CompUnit) (fp : String) :
    ∀ f ∈ (extractApis t fp).1, f.file = fp := by
  unfold extractApis
  generalize t.classes = cs
  induction cs with
  | nil => intro f hf; simp [apisClassesLoop] at hf
  | cons c cs ih =>
    intro f hf
    unfold apisClassesLoop at hf
    by_cases hcrash : (apisOfClass fp c).2 = true
    · rw [if_pos hcrash] at hf
      unfold apisOfClass at hf
      cases hcp : classPathLoop c.annotations with
      | none => rw [hcp] at hf; simp at hf
      | some cp =>
        rw [hcp] at hf
        exact apisMethodsLoop_file fp c.name cp _ c.methods f hf
    · rw [if_neg hcrash] at hf
      simp only [List.mem_append] at hf
      rcases hf with hf | hf
      · unfold apisOfClass at hf
        cases hcp : classPathLoop c.annotations with
        | none => rw [hcp] at hf; simp at hf
        | some cp =>
          rw [hcp] at hf
          exact apisMethodsLoop_file fp c.name cp _ c.methods f hf
      · exact ih f hf

/-- Every member-inventory entry carries the file path. -/
theorem extractFunctions_file (t : CompUnit) (fp : String) :
    ∀ e ∈ extractFunctions t fp, e.2.file = fp := by
  intro e he
  unfold extractFunctions at he
  rcases List.mem_flatMap.mp he with ⟨c, _, hin⟩
  rw [functionsMethodsLoop_eq] at hin
  rcases List.mem_map.mp hin with ⟨m, _, heq⟩
  rw [← heq]
  rfl

/-- A monadic fold over `Option` preserves any invariant its step
preserves on success. -/
theorem foldlM_preserve {α β : Type} (P : β → Prop) (f : β → α → Option β)
    (hf : ∀ b a b2, P b → f b a = some b2 → P b2) :
    ∀ (l : List α) (b b2 : β), P b → l.foldlM f b = some b2 → P b2 := by
  intro l
  induction l with
  | nil =>
    intro b b2 hb h
    cases h
    exact hb
  | cons a as ih =>
    intro b b2 hb h
    rw [List.foldlM_cons] at h
    cases hfa : f b a with
    | none => rw [hfa] at h; cases h
    | some b1 =>
      rw [hfa] at h
      simp only [Option.bind_eq_bind, Option.some_bind] at h
      exact ih b1 b2 (hf b a b1 hb hfa) h

/-- A successful class-annotation step keeps the record's file. -/
theorem batchClassAnnoStep_file (fp cname : String) (st : Bool × BatchFact)
    (a : Annot) (st2 : Bool × BatchFact) (hst : st.2.file = fp)
    (h : batchClassAnnoStep cname st a = some st2) : st2.2.file = fp := by
  unfold batchClassAnnoStep at h
  split at h
  · split at h
    · cases hv : extractAnnoValue a with
      | none => rw [hv] at h; cases h
      | some v =>
        rw [hv] at h
        simp only [Option.map_some] at h
        cases h
        exact hst
    · cases h
      exact hst
  · cases h
    exact hst

/-- A successful method-annotation step keeps the record's file. -/
theorem batchMethodAnnoStep_file (fp cname mname : String)
    (st : Bool × BatchFact) (a : Annot) (st2 : Bool × BatchFact)
    (hst : st.2.file = fp)
    (h : batchMethodAnnoStep cname mname st a = some st2) : st2.2.file = fp := by
  unfold batchMethodAnnoStep at h
  split at h
  · split at h
    · cases hv : extractAnnoValue a with
      | none => rw [hv] at h; cases h
      | some v =>
        rw [hv] at h
        simp only [Option.map_some] at h
        cases h
        exact hst
    · cases h
      exact hst
  · cases h
    exact hst

/-- A successful class visit of the batch extractor keeps the record's
file. -/
theorem batchClassStep_file (fp : String) (st : Bool × BatchFact)
    (c : ClassDecl) (st2 : Bool × BatchFact) (hst : st.2.file = fp)
    (h : batchClassStep st c = some st2) : st2.2.file = fp := by
  unfold batchClassStep at h
  have hst1 : (batchNameStep st c).2.file = fp := by
    unfold batchNameStep
    split <;> simpa using hst
  cases hann : c.annotations.foldlM (batchClassAnnoStep c.name) (batchNameStep st c) with
  | none => rw [hann] at h; cases h
  | some stA =>
    rw [hann] at h
    have hA : stA.2.file = fp :=
      foldlM_preserve (fun (s : Bool × BatchFact) => s.2.file = fp) _
        (fun b a b2 hb hf => batchClassAnnoStep_file fp c.name b a b2 hb hf)
        c.annotations _ stA hst1 hann
    exact foldlM_preserve (fun (s : Bool × BatchFact) => s.2.file = fp) _
      (fun b m b2 hb hf =>
        foldlM_preserve (fun (s : Bool × BatchFact) => s.2.file = fp) _
          (fun b3 a b4 hb3 hf3 => batchMethodAnnoStep_file fp c.name m.name b3 a b4 hb3 hf3)
          m.annotations b b2 hb hf)
      c.methods stA st2 hA h

/-- Every batch fact carries the file path. -/
theorem extractBatchProcesses_file (t : CompUnit) (fp content : String) :
    ∀ b ∈ (extractBatchProcesses t fp content).getD [], b.file = fp := by
  intro b hb
  unfold extractBatchProcesses at hb
  cases hfold : t.classes.foldlM batchClassStep (false, ⟨fp, "Unknown", "", none, none⟩) with
  | none => rw [hfold] at hb; simp at hb
  | some st =>
    rw [hfold] at hb
    have hst : st.2.file = fp :=
      foldlM_preserve (fun (s : Bool × BatchFact) => s.2.file = fp) _
        (fun b2 c b3 hb2 hf => batchClassStep_file fp b2 c b3 hb2 hf)
        t.classes _ st rfl hfold
    simp only [Option.getD_some] at hb
    by_cases hxml : (strContains content "<job" || strContains content "<step" ||
        strContains content "<tasklet") = true
    · rw [if_pos hxml] at hb
      dsimp only at hb
      split at hb
      · rcases List.mem_singleton.mp hb with rfl
        simpa using hst
      · simp at hb
    · rw [if_neg hxml] at hb
      split at hb
      · rcases List.mem_singleton.mp hb with rfl
        exact hst
      · simp at hb

/-- Every dependency record's file is the path of one of the analyzed
units. -/
theorem analyzeDependencies_file (files : List (String × CompUnit)) :
    ∀ p ∈ analyzeDependencies files, ∃ q ∈ files, p.2.file = q.1 := by
  have hclass : ∀ (fp : String) (t : CompUnit) (m : DepMap) (c : ClassDecl),
      ∀ p ∈ processClass fp t m c,
        (∃ p0 ∈ m, p.2.file = p0.2.file) ∨ p.2.file = fp := by
    intro fp t m c p hp
    unfold processClass at hp
    unfold depAppendUses at hp
    rcases List.mem_map.mp hp with ⟨p0, hp0, heq⟩
    have hfile : p.2.file = p0.2.file := by
      rw [← heq]
      by_cases hk : p0.1 = fqnOf (pkgOf t) c.name <;> simp [hk]
    by_cases hct : depContains m (fqnOf (pkgOf t) c.name) = true
    · rw [if_pos hct] at hp0
      exact Or.inl ⟨p0, hp0, hfile⟩
    · rw [if_neg hct] at hp0
      rcases List.mem_append.mp hp0 with h0 | h0
      · exact Or.inl ⟨p0, h0, hfile⟩
      · rcases List.mem_singleton.mp h0 with rfl
        exact Or.inr (by rw [hfile])
  have hfile2 : ∀ (ft : String × CompUnit) (m : DepMap),
      ∀ p ∈ processFile m ft,
        (∃ p0 ∈ m, p.2.file = p0.2.file) ∨ p.2.file = ft.1 := by
    intro ft
    unfold processFile
    generalize ft.2.classes = cs
    induction cs with
    | nil => intro m p hp; exact Or.inl ⟨p, hp, rfl⟩
    | cons c cs ih =>
      intro m p hp
      simp only [List.foldl_cons] at hp
      rcases ih (processClass ft.1 ft.2 m c) p hp with ⟨p0, hp0, hpf⟩ | hpf
      · rcases hclass ft.1 ft.2 m c p0 hp0 with ⟨p1, hp1, hpf1⟩ | hpf1
        · exact Or.inl ⟨p1, hp1, hpf.trans hpf1⟩
        · exact Or.inr (hpf.trans hpf1)
      · exact Or.inr hpf
  have hgo : ∀ (fs : List (String × CompUnit)) (m0 : DepMap),
      ∀ p ∈ fs.foldl processFile m0,
        (∃ p0 ∈ m0, p.2.file = p0.2.file) ∨ ∃ q ∈ fs, p.2.file = q.1 := by
    intro fs
    induction fs with
    | nil => intro m0 p hp; exact Or.inl ⟨p, hp, rfl⟩
    | cons ft fts ih =>
      intro m0 p hp
      simp only [List.foldl_cons] at hp
      rcases ih (processFile m0 ft) p hp with ⟨p2, hp2, hpf⟩ | ⟨q, hq, hqf⟩
      · rcases hfile2 ft m0 p2 hp2 with ⟨p0, hp0, hpf0⟩ | hpf0
        · exact Or.inl ⟨p0, hp0, hpf.trans hpf0⟩
        · exact Or.inr ⟨ft, by simp, hpf.trans hpf0⟩
      · exact Or.inr ⟨q, by simp [hq], hqf⟩
  intro p hp
  rcases hgo files [] p hp with ⟨p0, hp0, _⟩ | h
  · simp at hp0
  · exact h

/-- A file that does not parse leaves the whole scan state untouched. -/
theorem parseJavaFile_failed (st : ScanState) (g : SourceFile)
    (h : g.outcome = ParseOutcome.failed) : parseJavaFile st g = st := by
  unfold parseJavaFile
  rw [h]

/-- Each scanned file only appends entries bearing its own path. -/
theorem parseJavaFile_step (st : ScanState) (g : SourceFile) :
    (∀ a ∈ (parseJavaFile st g).apis,
        a ∈ st.apis ∨ (parsesOk g = true ∧ a.file = g.path)) ∧
    (∀ e ∈ (parseJavaFile st g).functions,
        e ∈ st.functions ∨ (parsesOk g = true ∧ e.2.file = g.path)) ∧
    (∀ b ∈ (parseJavaFile st g).batch,
        b ∈ st.batch ∨ (parsesOk g = true ∧ b.file = g.path)) ∧
    (∀ p ∈ (parseJavaFile st g).parsed,
        p ∈ st.parsed ∨ (parsesOk g = true ∧ p.1 = g.path)) := by
  cases hg : g.outcome with
  | failed =>
    rw [parseJavaFile_failed st g hg]
    exact ⟨fun a ha => Or.inl ha, fun e he => Or.inl he,
           fun b hb => Or.inl hb, fun p hp => Or.inl hp⟩
  | ok t =>
    have hok : parsesOk g = true := by unfold parsesOk; rw [hg]
    unfold parseJavaFile
    rw [hg]
    dsimp only
    by_cases hcrash : (extractApis t g.path).2 = true
    · rw [if_pos hcrash]
      refine ⟨?_, ?_, ?_, ?_⟩
      · intro a ha
        rcases List.mem_append.mp ha with h | h
        · exact Or.inl h
        · exact Or.inr ⟨hok, extractApis_file t g.path a h⟩
      · intro e he; exact Or.inl he
      · intro b hb; exact Or.inl hb
      · intro p hp
        rcases List.mem_append.mp hp with h | h
        · exact Or.inl h
        · rcases List.mem_singleton.mp h with rfl
          exact Or.inr ⟨hok, rfl⟩
    · rw [if_neg hcrash]
      refine ⟨?_, ?_, ?_, ?_⟩
      · intro a ha
        rcases List.mem_append.mp ha with h | h
        · exact Or.inl h
        · exact Or.inr ⟨hok, extractApis_file t g.path a h⟩
      · intro e he
        rcases List.mem_append.mp he with h | h
        · exact Or.inl h
        · exact Or.inr ⟨hok, extractFunctions_file t g.path e h⟩
      · intro b hb
        rcases List.mem_append.mp hb with h | h
        · exact Or.inl h
        · exact Or.inr ⟨hok, extractBatchProcesses_file t g.path g.content b h⟩
      · intro p hp
        rcases List.mem_append.mp hp with h | h
        · exact Or.inl h
        · rcases List.mem_singleton.mp h with rfl
          exact Or.inr ⟨hok, rfl⟩

/-- Every entry of every accumulator of a finished scan is attributed to a
successfully parsed file of the scan. -/
theorem scanFiles_mem (files : List SourceFile) :
    ∀ st : ScanState,
      (∀ a ∈ (files.foldl parseJavaFile st).apis,
          a ∈ st.apis ∨ ∃ g ∈ files, parsesOk g = true ∧ a.file = g.path) ∧
      (∀ e ∈ (files.foldl parseJavaFile st).functions,
          e ∈ st.functions ∨ ∃ g ∈ files, parsesOk g = true ∧ e.2.file = g.path) ∧
      (∀ b ∈ (files.foldl parseJavaFile st).batch,
          b ∈ st.batch ∨ ∃ g ∈ files, parsesOk g = true ∧ b.file = g.path) ∧
      (∀ p ∈ (files.foldl parseJavaFile st).parsed,
          p ∈ st.parsed ∨ ∃ g ∈ files, parsesOk g = true ∧ p.1 = g.path) := by
  induction files with
  | nil =>
    intro st
    exact ⟨fun a ha => Or.inl ha, fun e he => Or.inl he,
           fun b hb => Or.inl hb, fun p hp => Or.inl hp⟩
  | cons g gs ih =>
    intro st
    simp only [List.foldl_cons]
    obtain ⟨iha, ihe, ihb, ihp⟩ := ih (parseJavaFile st g)
    obtain ⟨sa, se, sb, sp⟩ := parseJavaFile_step st g
    refine ⟨?_, ?_, ?_, ?_⟩
    · intro a ha
      rcases iha a ha with h | ⟨g2, hg2, hold⟩
      · rcases sa a h with h2 | ⟨h2, h3⟩
        · exact Or.inl h2
        · exact Or.inr ⟨g, by simp, h2, h3⟩
      · exact Or.inr ⟨g2, by simp [hg2], hold⟩
    · intro e he
      rcases ihe e he with h | ⟨g2, hg2, hold⟩
      · rcases se e h with h2 | ⟨h2, h3⟩
        · exact Or.inl h2
        · exact Or.inr ⟨g, by simp, h2, h3⟩
      · exact Or.inr ⟨g2, by simp [hg2], hold⟩
    · intro b hb
      rcases ihb b hb with h | ⟨g2, hg2, hold⟩
      · rcases sb b h with h2 | ⟨h2, h3⟩
        · exact Or.inl h2
        · exact Or.inr ⟨g, by simp, h2, h3⟩
      · exact Or.inr ⟨g2, by simp [hg2], hold⟩
    · intro p hp
      rcases ihp p hp with h | ⟨g2, hg2, hold⟩
      · rcases sp p h with h2 | ⟨h2, h3⟩
        · exact Or.inl h2
        · exact Or.inr ⟨g, by simp, h2, h3⟩
      · exact Or.inr ⟨g2, by simp [hg2], hold⟩

/-- Failed files are simply skipped: scanning is the same as scanning only
the files that parse. -/
theorem scanFiles_filter_ok (files : List SourceFile) :
    scanFiles files = scanFiles (files.filter parsesOk) := by
  unfold scanFiles
  generalize initialScanState = st
  induction files generalizing st with
  | nil => rfl
  | cons g gs ih =>
    cases hg : g.outcome with
    | failed =>
      have hnok : parsesOk g = false := by unfold parsesOk; rw [hg]
      rw [List.filter_cons_of_neg (by simp [hnok])]
      simp only [List.foldl_cons]
      rw [parseJavaFile_failed st g hg]
      exact ih st
    | ok t =>
      have hok : parsesOk g = true := by unfold parsesOk; rw [hg]
      rw [List.filter_cons_of_pos hok]
      simp only [List.foldl_cons]
      exact ih (parseJavaFile st g)

/-- C2.  A source file whose text fails to parse is isolated: the scan
result is the same as if only the parsable files had been scanned (so all
facts of every other file survive), and the failing file's path appears in
none of the fact tables — parsed units, apis, functions, batch processes,
or dependency records. -/
theorem C2_parse_failure_isolation (files : List SourceFile)
    (sf : SourceFile) (_hmem : sf ∈ files)
    (_hfail : sf.outcome = ParseOutcome.failed)
    (hpath : ∀ g ∈ files, g.path = sf.path → g.outcome = ParseOutcome.failed) :
    scanFiles files = scanFiles (files.filter parsesOk) ∧
    (∀ p ∈ (scanFiles files).parsed, p.1 ≠ sf.path) ∧
    (∀ a ∈ (scanFiles files).apis, a.file ≠ sf.path) ∧
    (∀ e ∈ (scanFiles files).functions, e.2.file ≠ sf.path) ∧
    (∀ b ∈ (scanFiles files).batch, b.file ≠ sf.path) ∧
    (∀ p ∈ analyzeDependencies (scanFiles files).parsed, p.2.file ≠ sf.path) := by
  have hng : ∀ g ∈ files, parsesOk g = true → g.path ≠ sf.path := by
    intro g hg hok heq
    have := hpath g hg heq
    unfold parsesOk at hok
    rw [this] at hok
    cases hok
  obtain ⟨sa, se, sb, sp⟩ := scanFiles_mem files initialScanState
  have hparsed : ∀ p ∈ (scanFiles files).parsed, p.1 ≠ sf.path := by
    intro p hp
    rcases sp p hp with h | ⟨g, hg, hok, hpg⟩
    · simp [initialScanState] at h
    · rw [hpg]; exact hng g hg hok
  refine ⟨scanFiles_filter_ok files, hparsed, ?_, ?_, ?_, ?_⟩
  · intro a ha
    rcases sa a ha with h | ⟨g, hg, hok, hpg⟩
    · simp [initialScanState] at h
    · rw [hpg]; exact hng g hg hok
  · intro e he
    rcases se e he with h | ⟨g, hg, hok, hpg⟩
    · simp [initialScanState] at h
    · rw [hpg]; exact hng g hg hok
  · intro b hb
    rcases sb b hb with h | ⟨g, hg, hok, hpg⟩
    · simp [initialScanState] at h
    · rw [hpg]; exact hng g hg hok
  · intro p hp
    rcases analyzeDependencies_file (scanFiles files).parsed p hp with ⟨q, hq, hqf⟩
    rw [hqf]
    exact hparsed q hq

/-- C2, witness: a scan of a failing file followed by a parsable
single-class file keeps the good file's facts and never mentions the bad
path. -/
theorem C2_witness :
    scanFiles [⟨"Bad.java", "not parsable java", ParseOutcome.failed⟩,
               ⟨"Good.java", "",
                ParseOutcome.ok ⟨some "p", [], [⟨"G", [], [⟨"run", [], [], [], none⟩], [], none, []⟩]⟩⟩] =
      scanFiles ([⟨"Bad.java", "not parsable java", ParseOutcome.failed⟩,
                  ⟨"Good.java", "",
                   ParseOutcome.ok ⟨some "p", [], [⟨"G", [], [⟨"run", [], [], [], none⟩], [], none, []⟩]⟩⟩].filter parsesOk) ∧
    ∀ e ∈ (scanFiles [⟨"Bad.java", "not parsable java", ParseOutcome.failed⟩,
                      ⟨"Good.java", "",
                       ParseOutcome.ok ⟨some "p", [], [⟨"G", [], [⟨"run", [], [], [], none⟩], [], none, []⟩]⟩⟩]).functions,
      e.2.file ≠ "Bad.java" := by
  have h := C2_parse_failure_isolation
    [⟨"Bad.java", "not parsable java", ParseOutcome.failed⟩,
     ⟨"Good.java", "",
      ParseOutcome.ok ⟨some "p", [], [⟨"G", [], [⟨"run", [], [], [], none⟩], [], none, []⟩]⟩⟩]
    ⟨"Bad.java", "not parsable java", ParseOutcome.failed⟩
    (by simp) rfl (by decide)
  exact ⟨h.1, h.2.2.2.1⟩

/-! ## C4 -/

/-- Two units declaring the same qualified class name in two files make the
second file's field resolutions flow into the record created from the
first file: the appended use comes from the second file's imports, which
are not the record's stored imports. -/
theorem C4_counterexample_cross_file_collision :
    analyzeDependencies
        [("f1", ⟨some "p", ["x.D"], [⟨"C", [], [], [], none, []⟩]⟩),
         ("f2", ⟨some "p", ["y.E"], [⟨"C", [], [], [⟨"E", ["e"]⟩], none, []⟩]⟩)] =
      [("p.C", ⟨"f1", "p", ["x.D"], ["y.E"]⟩)] ∧
    "y.E" ∉ (["x.D"] : List String) := by
  exact ⟨by decide, by decide⟩

/-- All short names a unit references: field types, implemented
interfaces, superclasses. -/
def unitRefNames (t : CompUnit) : List String :=
  (treeFields t).map (fun f => f.typeName) ++
    t.classes.flatMap (fun c => c.implements) ++
    t.classes.filterMap (fun c => c.extendsType)

/-- The names one class visit resolves are among the unit's referenced
names. -/
theorem classRefNames_subset (t : CompUnit) (c : ClassDecl)
    (hc : c ∈ t.classes) :
    ∀ s ∈ classRefNames t c, s ∈ unitRefNames t := by
  intro s hs
  unfold classRefNames at hs
  unfold unitRefNames
  simp only [List.mem_append] at hs ⊢
  rcases hs with (hs | hs) | hs
  · rcases List.mem_flatMap.mp hs with ⟨f, hf, hmap⟩
    rcases List.mem_map.mp hmap with ⟨_, _, heq⟩
    exact Or.inl (Or.inl (heq ▸ List.mem_map_of_mem (fun f => f.typeName) hf))
  · exact Or.inl (Or.inr (List.mem_flatMap.mpr ⟨c, hc, hs⟩))
  · refine Or.inr (List.mem_filterMap.mpr ⟨c, hc, ?_⟩)
    cases he : c.extendsType with
    | none => rw [he] at hs; simp at hs
    | some e => rw [he] at hs; simp at hs; rw [hs]

/-- Every use appended during one class visit is one of the unit's own
imported paths, suffix-matching a name the class visit references. -/
theorem classUses_spec (imports : List String) (t : CompUnit) (c : ClassDecl) :
    ∀ u ∈ classUses imports t c,
      u ∈ imports ∧ ∃ s ∈ classRefNames t c, strEndsWith u ("." ++ s) = true := by
  intro u hu
  unfold classUses at hu
  rcases List.mem_flatMap.mp hu with ⟨s, hs, hmatch⟩
  unfold matchingImports at hmatch
  have := List.mem_filter.mp hmatch
  exact ⟨this.1, s, hs, this.2⟩

/-- A suffix match against a dot-free short name pins the last dotted
segment. -/
theorem lastSegment_of_suffix_match (u s : String)
    (hsuf : strEndsWith u ("." ++ s) = true) (hdot : '.' ∉ s.toList) :
    lastSegment u = s := by
  unfold strEndsWith at hsuf
  rw [List.isSuffixOf_iff_suffix] at hsuf
  obtain ⟨pre, hpre⟩ := hsuf
  have htake : ∀ (xs : List Char) (y : Char) (ys : List Char),
      (∀ x ∈ xs, (x ≠ '.' : Bool) = true) → ((y ≠ '.' : Bool) = false) →
      ((xs ++ y :: ys).takeWhile (fun c => c ≠ '.')) = xs := by
    intro xs
    induction xs with
    | nil =>
      intro y ys _ hy
      have hy2 : y = '.' := by simpa using hy
      simp [List.takeWhile_cons, hy2]
    | cons x xs ih =>
      intro y ys hxs hy
      have hx := hxs x (by simp)
      simp only [List.cons_append, List.takeWhile_cons, hx]
      simp only [if_true]
      rw [ih y ys (fun x2 hx2 => hxs x2 (by simp [hx2])) hy]
  have hu : u.toList = pre ++ '.' :: s.toList := by
    rw [← hpre]
    simp
  unfold lastSegment
  rw [hu]
  rw [List.reverse_append, List.reverse_cons, List.append_assoc,
    List.singleton_append]
  rw [htake s.toList.reverse '.' pre.reverse ?_ (by simp)]
  · rw [List.reverse_reverse]
    cases s
    rfl
  · intro x hx
    have : x ∈ s.toList := List.mem_reverse.mp hx
    have : x ≠ '.' := fun heq => hdot (heq ▸ this)
    simpa using this

/-- What it means for a record keyed `k` to belong to the unit `ft`: its
file and imports are the unit's, its key is one of the unit's qualified
names, and all its uses are resolved imports of the unit. -/
def RecOf (ft : String × CompUnit) (k : String) (r : DepRecord) : Prop :=
  r.file = ft.1 ∧ r.imports = ft.2.imports ∧ k ∈ treeFqns ft.2 ∧
  ∀ u ∈ r.uses, u ∈ ft.2.imports ∧
    ∃ s ∈ unitRefNames ft.2, strEndsWith u ("." ++ s) = true

/-- Membership in the uses-append map: each entry comes from an entry of
the original map, extended exactly when its key matches. -/
theorem mem_depAppendUses (m : DepMap) (k : String) (us : List String) :
    ∀ p ∈ depAppendUses m k us, ∃ p0 ∈ m,
      (p0.1 ≠ k ∧ p = p0) ∨
      (p0.1 = k ∧ p = (p0.1, { p0.2 with uses := p0.2.uses ++ us })) := by
  intro p hp
  unfold depAppendUses at hp
  rcases List.mem_map.mp hp with ⟨p0, hp0, heq⟩
  by_cases hk : p0.1 = k
  · exact ⟨p0, hp0, Or.inr ⟨hk, by rw [← heq]; simp [hk]⟩⟩
  · exact ⟨p0, hp0, Or.inl ⟨hk, by rw [← heq]; simp [hk]⟩⟩

/-- One class visit preserves the per-file record invariant: entries not
keyed by a qualified name of the current unit are untouched, all others
belong to the current unit. -/
theorem processClass_inner (P0 : String × DepRecord → Prop) (fp : String)
    (t : CompUnit) (m : DepMap) (c : ClassDecl) (hc : c ∈ t.classes)
    (hm : ∀ p ∈ m, (P0 p ∧ p.1 ∉ treeFqns t) ∨ RecOf (fp, t) p.1 p.2) :
    ∀ p ∈ processClass fp t m c,
      (P0 p ∧ p.1 ∉ treeFqns t) ∨ RecOf (fp, t) p.1 p.2 := by
  intro p hp
  unfold processClass at hp
  have hk : fqnOf (pkgOf t) c.name ∈ treeFqns t :=
    List.mem_map_of_mem (fun c => fqnOf (pkgOf t) c.name) hc
  have hm1 : ∀ p2 ∈ (if depContains m (fqnOf (pkgOf t) c.name) then m
      else m ++ [(fqnOf (pkgOf t) c.name, ⟨fp, pkgOf t, t.imports, []⟩)]),
      (P0 p2 ∧ p2.1 ∉ treeFqns t) ∨ RecOf (fp, t) p2.1 p2.2 := by
    intro p2 hp2
    split at hp2
    · exact hm p2 hp2
    · rcases List.mem_append.mp hp2 with h | h
      · exact hm p2 h
      · rcases List.mem_singleton.mp h with rfl
        exact Or.inr ⟨rfl, rfl, hk, by simp⟩
  rcases mem_depAppendUses _ _ _ p hp with ⟨p0, hp0, hcase⟩
  rcases hcase with ⟨_, heq⟩ | ⟨hkey, heq⟩
  · subst heq
    exact hm1 p hp0
  · subst heq
    rcases hm1 p0 hp0 with ⟨_, hnot⟩ | hrec
    · exact absurd (hkey ▸ hk) hnot
    · refine Or.inr ⟨hrec.1, hrec.2.1, hrec.2.2.1, ?_⟩
      intro u hu
      simp only at hu
      rcases List.mem_append.mp hu with h | h
      · exact hrec.2.2.2 u h
      · have := classUses_spec t.imports t c u h
        rcases this with ⟨himp, s, hs, hsuf⟩
        exact ⟨himp, s, classRefNames_subset t c hc s hs, hsuf⟩

/-- Processing one whole unit preserves the invariant. -/
theorem processFile_inner (P0 : String × DepRecord → Prop)
    (ft : String × CompUnit) (m : DepMap)
    (hm : ∀ p ∈ m, (P0 p ∧ p.1 ∉ treeFqns ft.2) ∨ RecOf ft p.1 p.2) :
    ∀ p ∈ processFile m ft,
      (P0 p ∧ p.1 ∉ treeFqns ft.2) ∨ RecOf ft p.1 p.2 := by
  obtain ⟨fp, t⟩ := ft
  unfold processFile
  dsimp only
  have hgen : ∀ (cs : List ClassDecl), (∀ c ∈ cs, c ∈ t.classes) →
      ∀ m2 : DepMap,
        (∀ p ∈ m2, (P0 p ∧ p.1 ∉ treeFqns t) ∨ RecOf (fp, t) p.1 p.2) →
        ∀ p ∈ cs.foldl (processClass fp t) m2,
          (P0 p ∧ p.1 ∉ treeFqns t) ∨ RecOf (fp, t) p.1 p.2 := by
    intro cs
    induction cs with
    | nil => intro _ m2 hm2 p hp; exact hm2 p hp
    | cons c cs ih =>
      intro hsub m2 hm2 p hp
      simp only [List.foldl_cons] at hp
      exact ih (fun c2 hc2 => hsub c2 (by simp [hc2]))
        (processClass fp t m2 c)
        (processClass_inner P0 fp t m2 c (hsub c (by simp)) hm2) p hp
  exact hgen t.classes (fun _ h => h) m hm

/-- The qualified names of two analyzed units never overlap. -/
def fqnsDisjoint (a b : String × CompUnit) : Prop :=
  ∀ k, k ∈ treeFqns a.2 → k ∉ treeFqns b.2

/-- Every record of a collision-free analysis belongs to one of the
analyzed units. -/
theorem analyzeDeps_records (Q : String × CompUnit → Prop) :
    ∀ fs : List (String × CompUnit), fs.Pairwise fqnsDisjoint →
      (∀ gt ∈ fs, Q gt) →
      ∀ m : DepMap,
        (∀ p ∈ m, ∃ ft, Q ft ∧ RecOf ft p.1 p.2 ∧
            ∀ gt ∈ fs, ∀ k, k ∈ treeFqns ft.2 → k ∉ treeFqns gt.2) →
        ∀ p ∈ fs.foldl processFile m, ∃ ft, Q ft ∧ RecOf ft p.1 p.2 := by
  intro fs
  induction fs with
  | nil =>
    intro _ _ m hm p hp
    rcases hm p hp with ⟨ft, hQ, hR, _⟩
    exact ⟨ft, hQ, hR⟩
  | cons gt gs ih =>
    intro hpw hQ m hm p hp
    simp only [List.foldl_cons] at hp
    have hpw2 := List.pairwise_cons.mp hpw
    refine ih hpw2.2 (fun x hx => hQ x (by simp [hx])) (processFile m gt) ?_ p hp
    intro p2 hp2
    have hstep := processFile_inner
      (fun p3 => ∃ ft, Q ft ∧ RecOf ft p3.1 p3.2 ∧
        ∀ ht ∈ gs, ∀ k, k ∈ treeFqns ft.2 → k ∉ treeFqns ht.2)
      gt m ?_ p2 hp2
    · rcases hstep with ⟨⟨ft, hQf, hRf, hdf⟩, _⟩ | hrec
      · exact ⟨ft, hQf, hRf, hdf⟩
      · exact ⟨gt, hQ gt (by simp), hrec, fun ht hht => hpw2.1 ht hht⟩
    · intro p3 hp3
      rcases hm p3 hp3 with ⟨ft, hQf, hRf, hdf⟩
      refine Or.inl ⟨⟨ft, hQf, hRf, fun ht hht => hdf ht (by simp [hht])⟩, ?_⟩
      exact hdf gt (by simp) p3.1 hRf.2.2.1

/-- C4, amended.  Provided no qualified class name is declared in two
different analyzed units (no cross-file collisions), every entry of every
record's `uses` list is a member of that unit's own import list — the
record's stored imports — and is a full import path whose suffix after a
dot is one of the unit's referenced short names (hence, for dot-free short
names, whose last segment is that short name); a referenced name with no
matching import contributes no entry. -/
theorem C4_amended_uses_subset_imports (files : List (String × CompUnit))
    (hdisj : files.Pairwise fqnsDisjoint) :
    ∀ p ∈ analyzeDependencies files, ∃ ft ∈ files,
      p.2.file = ft.1 ∧ p.2.imports = ft.2.imports ∧
      ∀ u ∈ p.2.uses, u ∈ p.2.imports ∧
        ∃ s ∈ unitRefNames ft.2, strEndsWith u ("." ++ s) = true ∧
          ('.' ∉ s.toList → lastSegment u = s) := by
  intro p hp
  have h := analyzeDeps_records (fun ft => ft ∈ files) files hdisj
    (fun _ h => h) [] (by intro p2 hp2; simp at hp2) p hp
  rcases h with ⟨ft, hft, hfile, himp, _, huses⟩
  refine ⟨ft, hft, hfile, himp, ?_⟩
  intro u hu
  rcases huses u hu with ⟨humem, s, hs, hsuf⟩
  exact ⟨by rw [himp]; exact humem, s, hs, hsuf,
    fun hdot => lastSegment_of_suffix_match u s hsuf hdot⟩

/-- The single-unit input of the C4 witness: class `A` has an imported
field type `X` and an unimported one `Y`. -/
def c4wUnit : CompUnit :=
  ⟨some "p", ["q.X"], [⟨"A", [], [], [⟨"X", ["x"]⟩, ⟨"Y", ["y"]⟩], none, []⟩]⟩

/-- C4, witness: on the one-unit project, the record of `p.A` has exactly
the use `q.X` — inside its own import list, suffix-matching the field
type `X`, with last segment `X` — while the unimported field type `Y`
contributed nothing. -/
theorem C4_amended_witness :
    analyzeDependencies [("f", c4wUnit)] =
      [("p.A", ⟨"f", "p", ["q.X"], ["q.X"]⟩)] ∧
    ∃ ft ∈ [("f", c4wUnit)],
      ("f" : String) = ft.1 ∧ (["q.X"] : List String) = ft.2.imports ∧
      ∀ u ∈ (["q.X"] : List String), u ∈ (["q.X"] : List String) ∧
        ∃ s ∈ unitRefNames ft.2, strEndsWith u ("." ++ s) = true ∧
          ('.' ∉ s.toList → lastSegment u = s) := by
  refine ⟨by decide, ?_⟩
  exact C4_amended_uses_subset_imports [("f", c4wUnit)]
    (List.pairwise_singleton _ _)
    ("p.A", ⟨"f", "p", ["q.X"], ["q.X"]⟩) (by decide)

/-! ## C10 -/

/-- Appending uses for an unbound key changes nothing. -/
theorem depAppendUses_not_contains : ∀ (m : DepMap) (k : String) (us : List String),
    depContains m k = false → depAppendUses m k us = m
  | [], _, _, _ => rfl
  | p :: m, k, us, h => by
    unfold depContains at h
    simp only [List.any_cons, Bool.or_eq_false_iff] at h
    unfold depAppendUses
    simp only [List.map_cons]
    rw [if_neg (by simpa using h.1)]
    have hrec := depAppendUses_not_contains m k us (by simpa [depContains] using h.2)
    unfold depAppendUses at hrec
    rw [hrec]

/-- Appending uses for a key bound only by the last entry extends exactly
that entry. -/
theorem depAppendUses_append_last (m : DepMap) (k : String) (r : DepRecord)
    (us : List String) (h : depContains m k = false) :
    depAppendUses (m ++ [(k, r)]) k us =
      m ++ [(k, { r with uses := r.uses ++ us })] := by
  unfold depAppendUses
  rw [List.map_append]
  have hm := depAppendUses_not_contains m k us h
  unfold depAppendUses at hm
  rw [hm]
  simp

/-- Processing a class whose qualified name is unbound appends one fresh,
fully resolved record. -/
theorem processClass_fresh (fp : String) (t : CompUnit) (m : DepMap)
    (c : ClassDecl)
    (h : depContains m (fqnOf (pkgOf t) c.name) = false) :
    processClass fp t m c =
      m ++ [(fqnOf (pkgOf t) c.name,
             ⟨fp, pkgOf t, t.imports, classUses t.imports t c⟩)] := by
  unfold processClass
  dsimp only
  rw [if_neg (by simp [h])]
  rw [depAppendUses_append_last m _ ⟨fp, pkgOf t, t.imports, []⟩ _ h]
  simp

/-- With pairwise-distinct qualified names, the class fold appends one
record per class, each resolved against the whole unit. -/
theorem processClasses_nodup (fp : String) (t : CompUnit) :
    ∀ (cs : List ClassDecl) (m : DepMap),
      (∀ c ∈ cs, depContains m (fqnOf (pkgOf t) c.name) = false) →
      (cs.map (fun c => fqnOf (pkgOf t) c.name)).Nodup →
      cs.foldl (processClass fp t) m =
        m ++ cs.map (fun c =>
          (fqnOf (pkgOf t) c.name,
           (⟨fp, pkgOf t, t.imports, classUses t.imports t c⟩ : DepRecord))) := by
  intro cs
  induction cs with
  | nil => intro m _ _; simp
  | cons c cs ih =>
    intro m hnc hnd
    simp only [List.foldl_cons, List.map_cons]
    rw [processClass_fresh fp t m c (hnc c (by simp))]
    have hnd2 : (∀ x ∈ cs, ¬ fqnOf (pkgOf t) x.name = fqnOf (pkgOf t) c.name) ∧
        (cs.map (fun c => fqnOf (pkgOf t) c.name)).Nodup := by simpa using hnd
    rw [ih _ ?_ hnd2.2]
    · simp
    · intro c2 hc2
      have h1 := hnc c2 (by simp [hc2])
      have h2 : fqnOf (pkgOf t) c2.name ≠ fqnOf (pkgOf t) c.name := hnd2.1 c2 hc2
      unfold depContains at h1 ⊢
      simp only [List.any_append, Bool.or_eq_false_iff]
      refine ⟨h1, ?_⟩
      simp only [List.any_cons, List.any_nil, Bool.or_false]
      simpa using fun heq => h2 heq.symm

/-- Lookup in a per-class record list with pairwise-distinct keys. -/
theorem depFind_map_classes (fp : String) (t : CompUnit) :
    ∀ (cs : List ClassDecl),
      (cs.map (fun c => fqnOf (pkgOf t) c.name)).Nodup →
      ∀ c ∈ cs,
        depFind (cs.map (fun c =>
            (fqnOf (pkgOf t) c.name,
             (⟨fp, pkgOf t, t.imports, classUses t.imports t c⟩ : DepRecord))))
          (fqnOf (pkgOf t) c.name) =
          some ⟨fp, pkgOf t, t.imports, classUses t.imports t c⟩ := by
  intro cs
  induction cs with
  | nil => intro _ c hc; simp at hc
  | cons c2 cs ih =>
    intro hnd c hc
    have hnd2 : (∀ x ∈ cs, ¬ fqnOf (pkgOf t) x.name = fqnOf (pkgOf t) c2.name) ∧
        (cs.map (fun c => fqnOf (pkgOf t) c.name)).Nodup := by simpa using hnd
    rcases List.mem_cons.mp hc with rfl | hmem
    · unfold depFind
      rw [List.map_cons, List.find?_cons_of_pos _ (by simp)]
      rfl
    · have hne : fqnOf (pkgOf t) c.name ≠ fqnOf (pkgOf t) c2.name := hnd2.1 c hmem
      unfold depFind
      rw [List.map_cons, List.find?_cons_of_neg _ (by simpa using Ne.symm hne)]
      exact ih hnd2.2 c hmem

/-- C10.  The dependency analyzer iterates the field declarations of the
whole compilation unit for every class visit: in a unit with
pairwise-distinct qualified class names, the record of each class `c`
resolves `classUses` — which ranges over `treeFields` of the entire unit,
once per declarator — so a field of one class contributes to every class's
record, and multi-declarator fields contribute duplicate entries. -/
theorem C10_whole_unit_fields_per_class (fp : String) (t : CompUnit)
    (hnd : (treeFqns t).Nodup) :
    ∀ c ∈ t.classes,
      depFind (analyzeDependencies [(fp, t)]) (fqnOf (pkgOf t) c.name) =
        some ⟨fp, pkgOf t, t.imports, classUses t.imports t c⟩ := by
  intro c hc
  unfold analyzeDependencies
  simp only [List.foldl_cons, List.foldl_nil]
  unfold processFile
  dsimp only
  rw [processClasses_nodup fp t t.classes [] (fun _ _ => rfl) hnd]
  rw [List.nil_append]
  exact depFind_map_classes fp t t.classes hnd c hc

/-- The two-class unit of the C10 witness: a two-declarator field of
class `A` typed by the imported `q.X`; class `B` declares nothing. -/
def c10unit : CompUnit :=
  ⟨some "p", ["q.X"],
   [⟨"A", [], [], [⟨"X", ["a", "b"]⟩], none, []⟩,
    ⟨"B", [], [], [], none, []⟩]⟩

/-- C10, witness: class `B`, which declares no field at all, still gets
`q.X` — twice, once per declarator of the field declared in class `A`. -/
theorem C10_witness :
    depFind (analyzeDependencies [("f", c10unit)]) "p.B" =
      some ⟨"f", "p", ["q.X"], ["q.X", "q.X"]⟩ := by
  have h := C10_whole_unit_fields_per_class "f" c10unit (by decide)
    ⟨"B", [], [], [], none, []⟩ (by decide)
  exact h.trans (by decide)

end JLens
